import Mathlib

/-!
Shallow embedding of the EngineUtilities numeric kernel.

Floating-point values are modelled as exact rationals (`ℚ`); C++ `int`
casts and loop counters are modelled as `ℤ`/`ℕ` with explicit
truncation.  Each definition is translated directly from the
corresponding C++ function in the repository (EngineMath.h, Vector2.h,
Vector3.h, Vector4.h, Matrix2x2.h, Matrix3x3.h, Matrix4x4.h,
Quaternion.h).
-/

namespace EngineUtilities

/-- Truncation toward zero, the semantics of C++ `static_cast<int>` on a
real value. -/
def trunc (q : ℚ) : ℤ :=
  if 0 ≤ q then ⌊q⌋ else ⌈q⌉

/-! ## EngineMath scalar functions -/

/-- Embeds `EngineMath::square`. -/
def square (number : ℚ) : ℚ := number * number

/-- The loop body of `EngineMath::sqrt`: ten Newton-Raphson updates
`xi = xi - (square(xi) - number) / (2 * xi)`, structurally recursive on
the remaining iteration count. -/
def sqrtLoop (number : ℚ) : ℕ → ℚ → ℚ
  | 0, xi => xi
  | n + 1, xi => sqrtLoop number n (xi - (square xi - number) / (2 * xi))

/-- Embeds `EngineMath::sqrt`: returns 0 for non-positive input, otherwise runs
ten Newton-Raphson iterations seeded at `number / 2`. -/
def engineSqrt (number : ℚ) : ℚ :=
  if number ≤ 0 then 0
  else sqrtLoop number 10 (number / 2)

/-- The loop of `EngineMath::power`: `for (int i = 0; i < exponent; i++)
result *= base;`.  The counter `i` is compared against the rational
`exponent` after conversion, exactly as C++ promotes `int` to `float`
in `i < exponent`. -/
def powerLoop (base exponent : ℚ) (i : ℕ) (result : ℚ) : ℚ :=
  if (i : ℚ) < exponent then powerLoop base exponent (i + 1) (result * base)
  else result
termination_by (⌈exponent⌉.toNat - i)
decreasing_by
  rename_i h
  have h1 : (i : ℤ) < ⌈exponent⌉ := Int.lt_ceil.mpr (by exact_mod_cast h)
  omega

/-- Embeds `EngineMath::power`. -/
def power (base exponent : ℚ) : ℚ := powerLoop base exponent 0 1

/-- Embeds `EngineMath::mod`: returns 0 when the divisor is 0, otherwise
`(a / b) - static_cast<int>(a / b)`. -/
def engineMod (a b : ℚ) : ℚ :=
  if b = 0 then 0
  else (a / b) - (trunc (a / b) : ℚ)

/-- Embeds `EngineMath::lerp`: `start + (end - start) * t`, with no clamping of
`t`. -/
def engineLerp (start stop t : ℚ) : ℚ := start + (stop - start) * t

/-- The float literal `3.14159265f` used by `EngineMath::cos` for range
reduction. -/
def piLit : ℚ := 314159265 / 100000000

/-- The float literal `6.28318530f` used by `EngineMath::cos` for range
reduction. -/
def twoPiLit : ℚ := 628318530 / 100000000

/-- First range-reduction loop of `EngineMath::cos`:
`while (radians > 3.14159265f) radians -= 6.28318530f;`. -/
def reduceDown (r : ℚ) : ℚ :=
  if piLit < r then reduceDown (r - twoPiLit) else r
termination_by (⌈(r - piLit) / twoPiLit⌉).toNat
decreasing_by
  rename_i h
  have htwo : (0 : ℚ) < twoPiLit := by norm_num [twoPiLit]
  have hq : 0 < (r - piLit) / twoPiLit := div_pos (by linarith) htwo
  have h1 : 1 ≤ ⌈(r - piLit) / twoPiLit⌉ := Int.ceil_pos.mpr hq
  have key : (r - twoPiLit - piLit) / twoPiLit = (r - piLit) / twoPiLit - 1 := by
    have hr : r - twoPiLit - piLit = (r - piLit) - twoPiLit := by ring
    rw [hr, sub_div, div_self (ne_of_gt htwo)]
  rw [key, Int.ceil_sub_one]
  omega

/-- Second range-reduction loop of `EngineMath::cos`:
`while (radians < -3.14159265f) radians += 6.28318530f;`. -/
def reduceUp (r : ℚ) : ℚ :=
  if r < -piLit then reduceUp (r + twoPiLit) else r
termination_by (⌈(-piLit - r) / twoPiLit⌉).toNat
decreasing_by
  rename_i h
  have htwo : (0 : ℚ) < twoPiLit := by norm_num [twoPiLit]
  have hq : 0 < (-piLit - r) / twoPiLit := div_pos (by linarith) htwo
  have h1 : 1 ≤ ⌈(-piLit - r) / twoPiLit⌉ := Int.ceil_pos.mpr hq
  have key : (-piLit - (r + twoPiLit)) / twoPiLit = (-piLit - r) / twoPiLit - 1 := by
    have hr : -piLit - (r + twoPiLit) = (-piLit - r) - twoPiLit := by ring
    rw [hr, sub_div, div_self (ne_of_gt htwo)]
  rw [key, Int.ceil_sub_one]
  omega

/-- Full range reduction of `EngineMath::cos`: both while-loops in
source order. -/
def reduceAngle (r : ℚ) : ℚ := reduceUp (reduceDown r)

/-- The Taylor-summation loop of `EngineMath::cos`:
`for (int i = 2; i <= 10; i += 2) { term *= x2 / (i * (i - 1));
result += sign * term; sign *= -1; }`. -/
def cosTaylorLoop (x2 : ℚ) (i : ℕ) (term result : ℚ) (sign : ℤ) : ℚ :=
  if i ≤ 10 then
    cosTaylorLoop x2 (i + 2) (term * (x2 / ((i : ℚ) * ((i : ℚ) - 1))))
      (result + (sign : ℚ) * (term * (x2 / ((i : ℚ) * ((i : ℚ) - 1)))))
      (-sign)
  else result
termination_by 11 - i
decreasing_by omega

/-- Embeds `EngineMath::cos`: range reduction followed by the fixed Taylor
loop starting from `result = 1`, `term = 1`, `sign = -1`. -/
def engineCos (radians : ℚ) : ℚ :=
  let r := reduceAngle radians
  cosTaylorLoop (r * r) 2 1 1 (-1)

/-- Coefficient list (constant term first) of the degree-10 polynomial
that the `cos` Taylor loop evaluates. -/
def cosCoeffs : List ℚ :=
  [1, 0, -(1 / 2), 0, 1 / 24, 0, -(1 / 720), 0, 1 / 40320, 0, -(1 / 3628800)]

/-- Horner evaluation of a coefficient list (constant term first). -/
def polyEval (coeffs : List ℚ) (x : ℚ) : ℚ :=
  coeffs.foldr (fun c acc => c + x * acc) 0

/-- Number of nonzero entries of a coefficient list. -/
def countNonzero (l : List ℚ) : ℕ := (l.filter (fun c => decide (c ≠ 0))).length

/-! ## Vector types -/

/-- Embeds `CVector2` from Vector2.h. -/
@[ext]
structure CVector2 where
  x : ℚ
  y : ℚ
deriving DecidableEq

namespace CVector2

/-- Embeds `CVector2::operator+`. -/
def add (a b : CVector2) : CVector2 := ⟨a.x + b.x, a.y + b.y⟩

/-- Embeds `CVector2::operator-`. -/
def sub (a b : CVector2) : CVector2 := ⟨a.x - b.x, a.y - b.y⟩

/-- Embeds `CVector2::operator*` with a scalar. -/
def smul (a : CVector2) (fac : ℚ) : CVector2 := ⟨a.x * fac, a.y * fac⟩

/-- Embeds `CVector2::operator[]`: `return i == 0 ? x : y;`, total for every
integer index. -/
def get (v : CVector2) (i : ℤ) : ℚ :=
  if i = 0 then v.x else v.y

/-- Embeds `CVector2::lerp`: clamps `t` into `[0, 1]` then interpolates. -/
def lerp (a b : CVector2) (t : ℚ) : CVector2 :=
  let t1 := if t < 0 then 0 else t
  let t2 := if 1 < t1 then 1 else t1
  add a (smul (sub b a) t2)

end CVector2

/-- Embeds `CVector3` from Vector3.h. -/
@[ext]
structure CVector3 where
  x : ℚ
  y : ℚ
  z : ℚ
deriving DecidableEq

namespace CVector3

/-- Embeds `CVector3::operator[]`: returns `x` for 0, `y` for 1, and `z` for
every other integer index. -/
def get (v : CVector3) (i : ℤ) : ℚ :=
  if i = 0 then v.x else if i = 1 then v.y else v.z

end CVector3

/-- Embeds `CVector4` from Vector4.h. -/
@[ext]
structure CVector4 where
  x : ℚ
  y : ℚ
  z : ℚ
  w : ℚ
deriving DecidableEq

/-! ## Matrix2x2 -/

/-- Embeds `EU::Matrix2x2`, row-major entries. -/
@[ext]
structure Matrix2x2 where
  m00 : ℚ
  m01 : ℚ
  m10 : ℚ
  m11 : ℚ
deriving DecidableEq

namespace Matrix2x2

/-- Entry access `m[i][j]`. -/
def get (A : Matrix2x2) (i j : Fin 2) : ℚ :=
  if i = 0 then (if j = 0 then A.m00 else A.m01)
  else (if j = 0 then A.m10 else A.m11)

/-- Embeds `Matrix2x2::setIdentity`: overwrites every entry. -/
def setIdentity (_ : Matrix2x2) : Matrix2x2 := ⟨1, 0, 0, 1⟩

/-- Embeds `Matrix2x2::zero`. -/
def zero : Matrix2x2 := ⟨0, 0, 0, 0⟩

/-- The default constructor `Matrix2x2()`: calls `setIdentity`, which
overwrites all entries regardless of the initial contents. -/
def defaultCtor : Matrix2x2 := setIdentity zero

/-- Embeds `Matrix2x2::identity`: returns `Matrix2x2()`. -/
def identity : Matrix2x2 := defaultCtor

/-- Embeds `Matrix2x2::operator*` with a scalar. -/
def smul (A : Matrix2x2) (sca : ℚ) : Matrix2x2 :=
  ⟨A.m00 * sca, A.m01 * sca, A.m10 * sca, A.m11 * sca⟩

/-- Embeds `Matrix2x2::operator*` with a matrix: the accumulation
`r.m[i][j] += m[i][k] * other.m[k][j]` over `k`, starting from
`zero()`. -/
def mul (A B : Matrix2x2) : Matrix2x2 :=
  ⟨0 + A.m00 * B.m00 + A.m01 * B.m10, 0 + A.m00 * B.m01 + A.m01 * B.m11,
   0 + A.m10 * B.m00 + A.m11 * B.m10, 0 + A.m10 * B.m01 + A.m11 * B.m11⟩

/-- Embeds `Matrix2x2::determinant`: `ad - bc`. -/
def determinant (A : Matrix2x2) : ℚ := A.m00 * A.m11 - A.m01 * A.m10

/-- Embeds `Matrix2x2::inverse`: closed-form adjugate over determinant;
returns `Matrix2x2()` (the identity) when the determinant is 0. -/
def inverse (A : Matrix2x2) : Matrix2x2 :=
  if A.determinant = 0 then defaultCtor
  else
    ⟨A.m11 * (1 / A.determinant), -A.m01 * (1 / A.determinant),
     -A.m10 * (1 / A.determinant), A.m00 * (1 / A.determinant)⟩

end Matrix2x2

/-! ## Matrix3x3 -/

/-- Embeds `EU::Matrix3x3`, row-major entries. -/
@[ext]
structure Matrix3x3 where
  m00 : ℚ
  m01 : ℚ
  m02 : ℚ
  m10 : ℚ
  m11 : ℚ
  m12 : ℚ
  m20 : ℚ
  m21 : ℚ
  m22 : ℚ
deriving DecidableEq

namespace Matrix3x3

/-- Entry access `m[i][j]`. -/
def get (A : Matrix3x3) (i j : Fin 3) : ℚ :=
  if i = 0 then (if j = 0 then A.m00 else if j = 1 then A.m01 else A.m02)
  else if i = 1 then (if j = 0 then A.m10 else if j = 1 then A.m11 else A.m12)
  else (if j = 0 then A.m20 else if j = 1 then A.m21 else A.m22)

/-- Embeds `Matrix3x3::setIdentity`: overwrites every entry. -/
def setIdentity (_ : Matrix3x3) : Matrix3x3 :=
  ⟨1, 0, 0, 0, 1, 0, 0, 0, 1⟩

/-- Embeds `Matrix3x3::zero`. -/
def zero : Matrix3x3 := ⟨0, 0, 0, 0, 0, 0, 0, 0, 0⟩

/-- The default constructor `Matrix3x3()`: calls `setIdentity`, which
overwrites all entries regardless of the initial contents. -/
def defaultCtor : Matrix3x3 := setIdentity zero

/-- Embeds `Matrix3x3::identity`. -/
def identity : Matrix3x3 := ⟨1, 0, 0, 0, 1, 0, 0, 0, 1⟩

/-- Embeds `Matrix3x3::operator*` with a scalar. -/
def smul (A : Matrix3x3) (sca : ℚ) : Matrix3x3 :=
  ⟨A.m00 * sca, A.m01 * sca, A.m02 * sca,
   A.m10 * sca, A.m11 * sca, A.m12 * sca,
   A.m20 * sca, A.m21 * sca, A.m22 * sca⟩

/-- Embeds `Matrix3x3::operator*` with a matrix: accumulation
`r.m[fil][col] += m[fil][k] * otro.m[k][col]` over `k`, starting from
`zero()`. -/
def mul (A B : Matrix3x3) : Matrix3x3 :=
  ⟨0 + A.m00 * B.m00 + A.m01 * B.m10 + A.m02 * B.m20,
   0 + A.m00 * B.m01 + A.m01 * B.m11 + A.m02 * B.m21,
   0 + A.m00 * B.m02 + A.m01 * B.m12 + A.m02 * B.m22,
   0 + A.m10 * B.m00 + A.m11 * B.m10 + A.m12 * B.m20,
   0 + A.m10 * B.m01 + A.m11 * B.m11 + A.m12 * B.m21,
   0 + A.m10 * B.m02 + A.m11 * B.m12 + A.m12 * B.m22,
   0 + A.m20 * B.m00 + A.m21 * B.m10 + A.m22 * B.m20,
   0 + A.m20 * B.m01 + A.m21 * B.m11 + A.m22 * B.m21,
   0 + A.m20 * B.m02 + A.m21 * B.m12 + A.m22 * B.m22⟩

/-- Embeds `Matrix3x3::operator*(const CVector2&)`: homogeneous transform of a
2D vector with promoted third coordinate 1, dividing by `w` when it is
nonzero. -/
def mulVec2 (A : Matrix3x3) (vec : CVector2) : CVector2 :=
  let x := A.m00 * vec.x + A.m01 * vec.y + A.m02 * 1
  let y := A.m10 * vec.x + A.m11 * vec.y + A.m12 * 1
  let w := A.m20 * vec.x + A.m21 * vec.y + A.m22 * 1
  if w ≠ 0 then ⟨x / w, y / w⟩ else ⟨x, y⟩

/-- Embeds `Matrix3x3::operator*(const CVector3&)`: direct linear map. -/
def mulVec3 (A : Matrix3x3) (vec : CVector3) : CVector3 :=
  ⟨A.m00 * vec.x + A.m01 * vec.y + A.m02 * vec.z,
   A.m10 * vec.x + A.m11 * vec.y + A.m12 * vec.z,
   A.m20 * vec.x + A.m21 * vec.y + A.m22 * vec.z⟩

/-- Embeds `Matrix3x3::determinant`: cofactor expansion along the first row. -/
def determinant (A : Matrix3x3) : ℚ :=
  A.m00 * (A.m11 * A.m22 - A.m12 * A.m21) -
  A.m01 * (A.m10 * A.m22 - A.m12 * A.m20) +
  A.m02 * (A.m10 * A.m21 - A.m11 * A.m20)

/-- Embeds `Matrix3x3::transpose`. -/
def transpose (A : Matrix3x3) : Matrix3x3 :=
  ⟨A.m00, A.m10, A.m20, A.m01, A.m11, A.m21, A.m02, A.m12, A.m22⟩

/-- Embeds `Matrix3x3::cofactor`: the wrapped row/column indices
`(fil + 1) % 3`, `(fil + 2) % 3` etc. are `Fin 3` addition. -/
def cofactor (A : Matrix3x3) (fil col : Fin 3) : ℚ :=
  let r1 := fil + 1
  let r2 := fil + 2
  let c1 := col + 1
  let c2 := col + 2
  let minor := A.get r1 c1 * A.get r2 c2 - A.get r1 c2 * A.get r2 c1
  if (fil.val + col.val) % 2 = 0 then minor else -minor

/-- Embeds `Matrix3x3::cofactorMatrix`. -/
def cofactorMatrix (A : Matrix3x3) : Matrix3x3 :=
  ⟨A.cofactor 0 0, A.cofactor 0 1, A.cofactor 0 2,
   A.cofactor 1 0, A.cofactor 1 1, A.cofactor 1 2,
   A.cofactor 2 0, A.cofactor 2 1, A.cofactor 2 2⟩

/-- Embeds `Matrix3x3::adjugate`: transposed cofactor matrix. -/
def adjugate (A : Matrix3x3) : Matrix3x3 := A.cofactorMatrix.transpose

/-- Embeds `Matrix3x3::inverse`: adjugate scaled by `1 / det`; returns
`identity()` when the determinant is 0. -/
def inverse (A : Matrix3x3) : Matrix3x3 :=
  if A.determinant = 0 then identity
  else A.adjugate.smul (1 / A.determinant)

end Matrix3x3

/-! ## Matrix4x4 -/

/-- Embeds `EU::Matrix4x4`, row-major entries. -/
@[ext]
structure Matrix4x4 where
  m00 : ℚ
  m01 : ℚ
  m02 : ℚ
  m03 : ℚ
  m10 : ℚ
  m11 : ℚ
  m12 : ℚ
  m13 : ℚ
  m20 : ℚ
  m21 : ℚ
  m22 : ℚ
  m23 : ℚ
  m30 : ℚ
  m31 : ℚ
  m32 : ℚ
  m33 : ℚ
deriving DecidableEq

namespace Matrix4x4

/-- Entry access `m[i][j]`. -/
def get (A : Matrix4x4) (i j : Fin 4) : ℚ :=
  if i = 0 then
    (if j = 0 then A.m00 else if j = 1 then A.m01 else if j = 2 then A.m02 else A.m03)
  else if i = 1 then
    (if j = 0 then A.m10 else if j = 1 then A.m11 else if j = 2 then A.m12 else A.m13)
  else if i = 2 then
    (if j = 0 then A.m20 else if j = 1 then A.m21 else if j = 2 then A.m22 else A.m23)
  else
    (if j = 0 then A.m30 else if j = 1 then A.m31 else if j = 2 then A.m32 else A.m33)

/-- Embeds `Matrix4x4::setIdentity`, transcribed entry by entry from the
source: the last row is written as `m[3][0]=0; m[3][1]=0; m[3][2]=1;
m[3][3]=0;`. -/
def setIdentity (_ : Matrix4x4) : Matrix4x4 :=
  ⟨1, 0, 0, 0,
   0, 1, 0, 0,
   0, 0, 1, 0,
   0, 0, 1, 0⟩

/-- Embeds `Matrix4x4::zero`. -/
def zero : Matrix4x4 := ⟨0, 0, 0, 0, 0, 0, 0, 0, 0, 0, 0, 0, 0, 0, 0, 0⟩

/-- The default constructor `Matrix4x4()`: calls `setIdentity`, which
overwrites all entries regardless of the initial contents. -/
def defaultCtor : Matrix4x4 := setIdentity zero

/-- Embeds `Matrix4x4::identity` (the static factory, which lists the correct
identity entries explicitly). -/
def identity : Matrix4x4 :=
  ⟨1, 0, 0, 0,
   0, 1, 0, 0,
   0, 0, 1, 0,
   0, 0, 0, 1⟩

/-- Embeds `Matrix4x4::operator*(const CVector4&)`: direct linear map. -/
def mulVec4 (A : Matrix4x4) (vec : CVector4) : CVector4 :=
  ⟨A.m00 * vec.x + A.m01 * vec.y + A.m02 * vec.z + A.m03 * vec.w,
   A.m10 * vec.x + A.m11 * vec.y + A.m12 * vec.z + A.m13 * vec.w,
   A.m20 * vec.x + A.m21 * vec.y + A.m22 * vec.z + A.m23 * vec.w,
   A.m30 * vec.x + A.m31 * vec.y + A.m32 * vec.z + A.m33 * vec.w⟩

/-- Embeds `Matrix4x4::operator*(const CVector3&)`: homogeneous transform of a
3D vector with implicit fourth coordinate 1, dividing by `w` when it is
nonzero. -/
def mulVec3 (A : Matrix4x4) (vec : CVector3) : CVector3 :=
  let x := A.m00 * vec.x + A.m01 * vec.y + A.m02 * vec.z + A.m03
  let y := A.m10 * vec.x + A.m11 * vec.y + A.m12 * vec.z + A.m13
  let z := A.m20 * vec.x + A.m21 * vec.y + A.m22 * vec.z + A.m23
  let w := A.m30 * vec.x + A.m31 * vec.y + A.m32 * vec.z + A.m33
  if w ≠ 0 then ⟨x / w, y / w, z / w⟩ else ⟨x, y, z⟩

end Matrix4x4

/-! ## Quaternion -/

/-- Embeds `EU::Quaternion`. -/
@[ext]
structure Quaternion where
  x : ℚ
  y : ℚ
  z : ℚ
  w : ℚ
deriving DecidableEq

namespace Quaternion

/-- Embeds `Quaternion::identity` (also the default constructor). -/
def identity : Quaternion := ⟨0, 0, 0, 1⟩

/-- Embeds `Quaternion::operator*`: the Hamilton product exactly as written in
the source. -/
def mul (q otro : Quaternion) : Quaternion :=
  ⟨q.w * otro.x + q.x * otro.w + q.y * otro.z - q.z * otro.y,
   q.w * otro.y - q.x * otro.z + q.y * otro.w + q.z * otro.x,
   q.w * otro.z + q.x * otro.y - q.y * otro.x + q.z * otro.w,
   q.w * otro.w - q.x * otro.x - q.y * otro.y - q.z * otro.z⟩

/-- The squared length `x*x + y*y + z*z + w*w` computed inline by
`Quaternion::inverse`. -/
def lengthSquared (q : Quaternion) : ℚ :=
  q.x * q.x + q.y * q.y + q.z * q.z + q.w * q.w

/-- Embeds `Quaternion::length`: uses `EngineMath::sqrt`. -/
def length (q : Quaternion) : ℚ := engineSqrt q.lengthSquared

/-- Embeds `Quaternion::normalized`: identity fallback at zero length. -/
def normalized (q : Quaternion) : Quaternion :=
  if q.length = 0 then ⟨0, 0, 0, 1⟩
  else ⟨q.x / q.length, q.y / q.length, q.z / q.length, q.w / q.length⟩

/-- Embeds `Quaternion::inverse`: conjugate scaled by `1 / lengthSquared`,
identity fallback when the squared length is 0. -/
def inverse (q : Quaternion) : Quaternion :=
  if q.lengthSquared = 0 then identity
  else ⟨-q.x / q.lengthSquared, -q.y / q.lengthSquared,
        -q.z / q.lengthSquared, q.w / q.lengthSquared⟩

/-- Embeds `Quaternion::lerp`: clamps `t` via
`t = (t < 0.f) ? 0.f : ((t > 1.f) ? 1.f : t);`, interpolates
componentwise, then normalizes. -/
def lerp (a b : Quaternion) (t : ℚ) : Quaternion :=
  let t1 := if t < 0 then 0 else (if 1 < t then 1 else t)
  normalized ⟨a.x + (b.x - a.x) * t1,
              a.y + (b.y - a.y) * t1,
              a.z + (b.z - a.z) * t1,
              a.w + (b.w - a.w) * t1⟩

end Quaternion

/-! ## Helper lemmas -/

/-- The Newton loop of `sqrt` is iteration of the update step. -/
lemma sqrtLoop_eq_iterate (x : ℚ) :
    ∀ (n : ℕ) (xi : ℚ),
      sqrtLoop x n xi = (fun v => v - (v * v - x) / (2 * v))^[n] xi := by
  intro n
  induction n with
  | zero => intro xi; rfl
  | succ n ih =>
    intro xi
    rw [sqrtLoop, ih, square, Function.iterate_succ_apply]

/-- The clamp computed by `CVector2::lerp` (two sequential `if`s) is
`max 0 (min 1 t)`. -/
lemma twoStepClamp (t : ℚ) :
    (if 1 < (if t < 0 then (0 : ℚ) else t) then (1 : ℚ)
     else (if t < 0 then (0 : ℚ) else t)) = max 0 (min 1 t) := by
  simp only [min_def, max_def]
  split_ifs <;> linarith

/-- The clamp computed by `Quaternion::lerp` (one nested conditional)
is `max 0 (min 1 t)`. -/
lemma oneStepClamp (t : ℚ) :
    (if t < 0 then (0 : ℚ) else if 1 < t then 1 else t) = max 0 (min 1 t) := by
  simp only [min_def, max_def]
  split_ifs <;> linarith

/-- Clamping to `[0, 1]` is idempotent. -/
lemma clamp_idempotent (t : ℚ) :
    max 0 (min 1 (max 0 (min 1 t))) = max 0 (min 1 t) := by
  simp only [min_def, max_def]
  split_ifs <;> linarith

/-- Lemma: `CVector2::lerp` rewritten through the clamped parameter. -/
lemma cvector2_lerp_clamped (a b : CVector2) (t : ℚ) :
    CVector2.lerp a b t =
      CVector2.add a (CVector2.smul (CVector2.sub b a) (max 0 (min 1 t))) := by
  simp only [CVector2.lerp]
  rw [twoStepClamp]

/-- Lemma: `Quaternion::lerp` rewritten through the clamped parameter. -/
lemma quaternion_lerp_clamped (a b : Quaternion) (t : ℚ) :
    Quaternion.lerp a b t =
      Quaternion.normalized
        ⟨a.x + (b.x - a.x) * max 0 (min 1 t),
         a.y + (b.y - a.y) * max 0 (min 1 t),
         a.z + (b.z - a.z) * max 0 (min 1 t),
         a.w + (b.w - a.w) * max 0 (min 1 t)⟩ := by
  simp only [Quaternion.lerp]
  rw [oneStepClamp]

/-- The first `cos` reduction loop never leaves a value above
`3.14159265`. -/
lemma reduceDown_le (r : ℚ) : reduceDown r ≤ piLit := by
  rw [reduceDown]
  split
  · exact reduceDown_le (r - twoPiLit)
  · rename_i h
    exact le_of_not_lt h
termination_by (⌈(r - piLit) / twoPiLit⌉).toNat
decreasing_by
  rename_i h
  have htwo : (0 : ℚ) < twoPiLit := by norm_num [twoPiLit]
  have hq : 0 < (r - piLit) / twoPiLit := div_pos (by linarith) htwo
  have h1 : 1 ≤ ⌈(r - piLit) / twoPiLit⌉ := Int.ceil_pos.mpr hq
  have key : (r - twoPiLit - piLit) / twoPiLit = (r - piLit) / twoPiLit - 1 := by
    have hr : r - twoPiLit - piLit = (r - piLit) - twoPiLit := by ring
    rw [hr, sub_div, div_self (ne_of_gt htwo)]
  rw [key, Int.ceil_sub_one]
  omega

/-- The second `cos` reduction loop never returns a value below
`-3.14159265`. -/
lemma reduceUp_ge (r : ℚ) : -piLit ≤ reduceUp r := by
  rw [reduceUp]
  split
  · exact reduceUp_ge (r + twoPiLit)
  · rename_i h
    exact le_of_not_lt h
termination_by (⌈(-piLit - r) / twoPiLit⌉).toNat
decreasing_by
  rename_i h
  have htwo : (0 : ℚ) < twoPiLit := by norm_num [twoPiLit]
  have hq : 0 < (-piLit - r) / twoPiLit := div_pos (by linarith) htwo
  have h1 : 1 ≤ ⌈(-piLit - r) / twoPiLit⌉ := Int.ceil_pos.mpr hq
  have key : (-piLit - (r + twoPiLit)) / twoPiLit = (-piLit - r) / twoPiLit - 1 := by
    have hr : -piLit - (r + twoPiLit) = (-piLit - r) - twoPiLit := by ring
    rw [hr, sub_div, div_self (ne_of_gt htwo)]
  rw [key, Int.ceil_sub_one]
  omega

/-- The second `cos` reduction loop preserves the upper bound
`3.14159265`, because one step adds exactly `2 * 3.14159265`. -/
lemma reduceUp_le (r : ℚ) (h : r ≤ piLit) : reduceUp r ≤ piLit := by
  rw [reduceUp]
  split
  · rename_i hlt
    refine reduceUp_le (r + twoPiLit) ?_
    have htp : twoPiLit = 2 * piLit := by norm_num [piLit, twoPiLit]
    linarith
  · exact h
termination_by (⌈(-piLit - r) / twoPiLit⌉).toNat
decreasing_by
  rename_i hlt
  have htwo : (0 : ℚ) < twoPiLit := by norm_num [twoPiLit]
  have hq : 0 < (-piLit - r) / twoPiLit := div_pos (by linarith) htwo
  have h1 : 1 ≤ ⌈(-piLit - r) / twoPiLit⌉ := Int.ceil_pos.mpr hq
  have key : (-piLit - (r + twoPiLit)) / twoPiLit = (-piLit - r) / twoPiLit - 1 := by
    have hr : -piLit - (r + twoPiLit) = (-piLit - r) - twoPiLit := by ring
    rw [hr, sub_div, div_self (ne_of_gt htwo)]
  rw [key, Int.ceil_sub_one]
  omega

/-- The composed range reduction of `cos` lands in
`[-3.14159265, 3.14159265]`. -/
lemma reduceAngle_bounds (r : ℚ) :
    -piLit ≤ reduceAngle r ∧ reduceAngle r ≤ piLit :=
  ⟨reduceUp_ge (reduceDown r), reduceUp_le (reduceDown r) (reduceDown_le r)⟩

set_option maxRecDepth 4000 in
/-- Unrolling the five iterations of the `cos` Taylor loop yields the
Horner evaluation of `cosCoeffs`. -/
lemma cosTaylorLoop_eval (x : ℚ) :
    cosTaylorLoop (x * x) 2 1 1 (-1) = polyEval cosCoeffs x := by
  simp [cosTaylorLoop, polyEval, cosCoeffs]
  ring

/-- Lemma: `EngineMath::cos` is the `cosCoeffs` polynomial evaluated at the
range-reduced angle. -/
lemma engineCos_eq (radians : ℚ) :
    engineCos radians = polyEval cosCoeffs (reduceAngle radians) := by
  simp only [engineCos]
  exact cosTaylorLoop_eval (reduceAngle radians)

/-- The `cos` polynomial has exactly 6 nonzero coefficients. -/
lemma countNonzero_cosCoeffs : countNonzero cosCoeffs = 6 := by
  simp [countNonzero, cosCoeffs, List.filter]

/-- An angle already inside the reduced range is left unchanged. -/
lemma reduceAngle_one : reduceAngle 1 = 1 := by
  rw [reduceAngle, reduceDown, if_neg (by norm_num [piLit]),
    reduceUp, if_neg (by norm_num [piLit])]

/-- The `power` loop multiplies once per counter value below the
exponent, hence `⌈exponent⌉` (clamped at 0) times in total. -/
lemma powerLoop_eq (base exponent : ℚ) (i : ℕ) (result : ℚ) :
    powerLoop base exponent i result = result * base ^ (⌈exponent⌉.toNat - i) := by
  by_cases h : (i : ℚ) < exponent
  · rw [powerLoop, if_pos h, powerLoop_eq base exponent (i + 1) (result * base)]
    have h1 : (i : ℤ) < ⌈exponent⌉ := Int.lt_ceil.mpr (by exact_mod_cast h)
    have h3 : ⌈exponent⌉.toNat - i = (⌈exponent⌉.toNat - (i + 1)) + 1 := by omega
    rw [h3, pow_succ]
    ring
  · rw [powerLoop, if_neg h]
    have h1 : ⌈exponent⌉ ≤ (i : ℤ) := Int.ceil_le.mpr (by exact_mod_cast le_of_not_lt h)
    have h2 : ⌈exponent⌉.toNat - i = 0 := by omega
    rw [h2, pow_zero, mul_one]
termination_by ⌈exponent⌉.toNat - i
decreasing_by
  have h1 : (i : ℤ) < ⌈exponent⌉ := Int.lt_ceil.mpr (by exact_mod_cast h)
  omega

/-- Lemma: `EngineMath::power` computes `base ^ ⌈exponent⌉` (with negative
ceilings clamped to 0). -/
lemma power_eq_ceil_pow (base exponent : ℚ) :
    power base exponent = base ^ ⌈exponent⌉.toNat := by
  rw [power, powerLoop_eq, one_mul, Nat.sub_zero]

/-- A vanishing sum of four rational squares forces every summand to
vanish. -/
lemma four_squares_eq_zero {a b c d : ℚ}
    (h : a * a + b * b + c * c + d * d = 0) :
    a = 0 ∧ b = 0 ∧ c = 0 ∧ d = 0 := by
  have ha : a * a = 0 := by
    nlinarith [mul_self_nonneg a, mul_self_nonneg b, mul_self_nonneg c, mul_self_nonneg d]
  have hb : b * b = 0 := by
    nlinarith [mul_self_nonneg a, mul_self_nonneg b, mul_self_nonneg c, mul_self_nonneg d]
  have hc : c * c = 0 := by
    nlinarith [mul_self_nonneg a, mul_self_nonneg b, mul_self_nonneg c, mul_self_nonneg d]
  have hd : d * d = 0 := by
    nlinarith [mul_self_nonneg a, mul_self_nonneg b, mul_self_nonneg c, mul_self_nonneg d]
  exact ⟨mul_self_eq_zero.mp ha, mul_self_eq_zero.mp hb,
    mul_self_eq_zero.mp hc, mul_self_eq_zero.mp hd⟩

/-- The adjugate of a 3x3 matrix written out entrywise: every wrapped
`Fin 3` index in `cofactor` reduces definitionally. -/
lemma adjugate_explicit (A : Matrix3x3) :
    A.adjugate =
      ⟨A.m11 * A.m22 - A.m12 * A.m21,
       -(A.m21 * A.m02 - A.m22 * A.m01),
       A.m01 * A.m12 - A.m02 * A.m11,
       -(A.m12 * A.m20 - A.m10 * A.m22),
       A.m22 * A.m00 - A.m20 * A.m02,
       -(A.m02 * A.m10 - A.m00 * A.m12),
       A.m10 * A.m21 - A.m11 * A.m20,
       -(A.m20 * A.m01 - A.m21 * A.m00),
       A.m00 * A.m11 - A.m01 * A.m10⟩ := rfl

/-! ## Claim theorems -/

/-- C1: the claim states that the default-constructed `Matrix2x2`,
`Matrix3x3` and `Matrix4x4` are identity matrices.  This holds for 2x2
and 3x3, but the default `Matrix4x4` (via `setIdentity`) writes its
last row as `0, 0, 1, 0`: entry `(3,2)` is 1 and entry `(3,3)` is 0,
so it is not the identity matrix — contradicting the source's own doc
comment on `setIdentity`. -/
theorem c1_default_matrix_identity :
    (∀ i j : Fin 2, Matrix2x2.defaultCtor.get i j = (if i.val = j.val then 1 else 0)) ∧
    (∀ i j : Fin 3, Matrix3x3.defaultCtor.get i j = (if i.val = j.val then 1 else 0)) ∧
    Matrix4x4.defaultCtor.get 3 2 = 1 ∧ Matrix4x4.defaultCtor.get 3 3 = 0 ∧
    Matrix4x4.defaultCtor ≠ Matrix4x4.identity := by
  refine ⟨by decide, by decide, by decide, by decide, by decide⟩

/-- C6: `sqrt` returns 0 for every input `x ≤ 0`, and for `x > 0`
returns exactly ten Newton-Raphson iterations of
`xi := xi - (xi^2 - x) / (2 * xi)` seeded at `x / 2`; it is a total
function with no error path. -/
theorem c6_sqrt_newton_fixed_iterations :
    ∀ x : ℚ, (x ≤ 0 → engineSqrt x = 0) ∧
      (0 < x → engineSqrt x =
        (fun xi => xi - (xi * xi - x) / (2 * xi))^[10] (x / 2)) := by
  intro x
  constructor
  · intro h
    simp [engineSqrt, h]
  · intro h
    rw [engineSqrt, if_neg (by linarith), sqrtLoop_eq_iterate]

/-- C6 witness: the theorem applied at `x = -1`, `x = 0` and `x = 4`. -/
theorem c6_sqrt_newton_fixed_iterations_witness :
    ((-1 : ℚ) ≤ 0 ∧ engineSqrt (-1) = 0) ∧
    ((0 : ℚ) ≤ 0 ∧ engineSqrt 0 = 0) ∧
    ((0 : ℚ) < 4 ∧ engineSqrt 4 =
      (fun xi => xi - (xi * xi - 4) / (2 * xi))^[10] ((4 : ℚ) / 2)) :=
  ⟨⟨by norm_num, (c6_sqrt_newton_fixed_iterations (-1)).1 (by norm_num)⟩,
   ⟨le_refl 0, (c6_sqrt_newton_fixed_iterations 0).1 (le_refl 0)⟩,
   ⟨by norm_num, (c6_sqrt_newton_fixed_iterations 4).2 (by norm_num)⟩⟩

/-- C7: for `b ≠ 0`, `mod(a, b)` returns the fractional part of the
quotient `(a/b) - trunc(a/b)`; `mod(a, 0)` returns 0; and at
`a = 7, b = 2` this differs from the conventional remainder
`a - b * trunc(a/b)`. -/
theorem c7_mod_fractional_quotient :
    ∀ a b : ℚ, (b ≠ 0 → engineMod a b = a / b - (trunc (a / b) : ℚ)) ∧
      engineMod a 0 = 0 ∧
      engineMod 7 2 ≠ 7 - 2 * (trunc ((7 : ℚ) / 2) : ℚ) := by
  intro a b
  refine ⟨fun h => by rw [engineMod, if_neg h], by simp [engineMod], ?_⟩
  have h32 : trunc ((7 : ℚ) / 2) = 3 := by norm_num [trunc]
  rw [engineMod, if_neg (by norm_num : (2 : ℚ) ≠ 0), h32]
  norm_num

/-- C7 witness: the theorem applied at `a = 7`, `b = 2`. -/
theorem c7_mod_fractional_quotient_witness :
    (2 : ℚ) ≠ 0 ∧ engineMod 7 2 = (7 : ℚ) / 2 - (trunc ((7 : ℚ) / 2) : ℚ) :=
  ⟨by norm_num, (c7_mod_fractional_quotient 7 2).1 (by norm_num)⟩

/-- C9: for every integer index outside the valid range (negative
indices included), `CVector2::operator[]` returns the `y` component and
`CVector3::operator[]` returns the `z` component; both accessors are
total functions of the index. -/
theorem c9_index_out_of_range_fallback :
    ∀ (v2 : CVector2) (v3 : CVector3) (i : ℤ),
      (i < 0 ∨ 2 ≤ i → v2.get i = v2.y) ∧
      (i < 0 ∨ 3 ≤ i → v3.get i = v3.z) := by
  intro v2 v3 i
  constructor
  · intro h
    have h0 : i ≠ 0 := by omega
    simp [CVector2.get, h0]
  · intro h
    have h0 : i ≠ 0 := by omega
    have h1 : i ≠ 1 := by omega
    simp [CVector3.get, h0, h1]

/-- C9 witness: the theorem applied at index `-1` for `CVector2` and
index `5` for `CVector3`. -/
theorem c9_index_out_of_range_fallback_witness :
    (((-1 : ℤ) < 0 ∨ 2 ≤ (-1 : ℤ)) ∧ (CVector2.mk 1 2).get (-1) = 2) ∧
    (((5 : ℤ) < 0 ∨ 3 ≤ (5 : ℤ)) ∧ (CVector3.mk 1 2 3).get 5 = 3) :=
  ⟨⟨Or.inl (by norm_num),
    (c9_index_out_of_range_fallback ⟨1, 2⟩ ⟨1, 2, 3⟩ (-1)).1 (Or.inl (by norm_num))⟩,
   ⟨Or.inr (by norm_num),
    (c9_index_out_of_range_fallback ⟨1, 2⟩ ⟨1, 2, 3⟩ 5).2 (Or.inr (by norm_num))⟩⟩

/-- C10: the scalar `EngineMath::lerp` applies no clamping — for every
`t` it returns `start + (end - start) * t`, extrapolating beyond the
endpoints (at `t = 2` it returns 2 on the segment from 0 to 1) — while
`CVector2::lerp` and `Quaternion::lerp` clamp `t` to `[0, 1]` first. -/
theorem c10_scalar_lerp_unclamped :
    (∀ start stop t : ℚ, engineLerp start stop t = start + (stop - start) * t) ∧
    engineLerp 0 1 2 = 2 ∧
    (∀ (a b : CVector2) (t : ℚ),
      CVector2.lerp a b t = CVector2.lerp a b (max 0 (min 1 t))) ∧
    (∀ (a b : Quaternion) (t : ℚ),
      Quaternion.lerp a b t = Quaternion.lerp a b (max 0 (min 1 t))) := by
  refine ⟨fun start stop t => rfl, by norm_num [engineLerp], ?_, ?_⟩
  · intro a b t
    rw [cvector2_lerp_clamped, cvector2_lerp_clamped, clamp_idempotent]
  · intro a b t
    rw [quaternion_lerp_clamped, quaternion_lerp_clamped, clamp_idempotent]

/-- C4: the round-trip holds for `Matrix2x2` (nonzero determinant gives
`m * m.inverse() = identity`, zero determinant gives
`inverse() = identity()`), and the zero-determinant fallback holds for
`Matrix3x3` — but the nonzero-determinant round-trip FAILS for
`Matrix3x3`: at the permutation matrix `[[0,1,0],[1,0,0],[0,0,1]]`
(determinant -1) the product `m * m.inverse()` is `diag(-1,-1,1)`, not
the identity.  `Matrix3x3::cofactor` negates an index-wrapped minor
that already carries the cofactor sign, so odd-position cofactors come
out with the wrong sign. -/
theorem c4_matrix_inverse_roundtrip :
    (∀ A : Matrix2x2,
      (A.determinant ≠ 0 → A.mul A.inverse = Matrix2x2.identity) ∧
      (A.determinant = 0 → A.inverse = Matrix2x2.identity)) ∧
    (∀ B : Matrix3x3, B.determinant = 0 → B.inverse = Matrix3x3.identity) ∧
    ((Matrix3x3.mk 0 1 0 1 0 0 0 0 1).determinant ≠ 0 ∧
      (Matrix3x3.mk 0 1 0 1 0 0 0 0 1).mul
          (Matrix3x3.mk 0 1 0 1 0 0 0 0 1).inverse ≠ Matrix3x3.identity) := by
  refine ⟨fun A => ⟨?_, ?_⟩, fun B h => ?_, ?_, ?_⟩
  · intro h
    rw [Matrix2x2.inverse, if_neg h]
    simp only [Matrix2x2.determinant] at h ⊢
    apply Matrix2x2.ext <;>
      (simp only [Matrix2x2.mul, Matrix2x2.identity, Matrix2x2.defaultCtor,
        Matrix2x2.setIdentity, Matrix2x2.determinant]
       field_simp
       ring)
  · intro h
    rw [Matrix2x2.inverse, if_pos h]
    rfl
  · rw [Matrix3x3.inverse, if_pos h]
  · norm_num [Matrix3x3.determinant]
  · have hd : (Matrix3x3.mk 0 1 0 1 0 0 0 0 1).determinant = -1 := by
      norm_num [Matrix3x3.determinant]
    rw [Matrix3x3.inverse, hd]
    norm_num [adjugate_explicit, Matrix3x3.smul, Matrix3x3.mul,
      Matrix3x3.identity, Matrix3x3.mk.injEq]

/-- C4 witness: the theorem applied to the invertible `[[1,2],[3,4]]`,
the singular `[[1,2],[2,4]]`, and the singular 3x3 matrix
`[[1,2,3],[4,5,6],[7,8,9]]`. -/
theorem c4_matrix_inverse_roundtrip_witness :
    ((Matrix2x2.mk 1 2 3 4).determinant ≠ 0 ∧
      (Matrix2x2.mk 1 2 3 4).mul (Matrix2x2.mk 1 2 3 4).inverse = Matrix2x2.identity) ∧
    ((Matrix2x2.mk 1 2 2 4).determinant = 0 ∧
      (Matrix2x2.mk 1 2 2 4).inverse = Matrix2x2.identity) ∧
    ((Matrix3x3.mk 1 2 3 4 5 6 7 8 9).determinant = 0 ∧
      (Matrix3x3.mk 1 2 3 4 5 6 7 8 9).inverse = Matrix3x3.identity) :=
  ⟨⟨by norm_num [Matrix2x2.determinant],
    (c4_matrix_inverse_roundtrip.1 ⟨1, 2, 3, 4⟩).1
      (by norm_num [Matrix2x2.determinant])⟩,
   ⟨by norm_num [Matrix2x2.determinant],
    (c4_matrix_inverse_roundtrip.1 ⟨1, 2, 2, 4⟩).2
      (by norm_num [Matrix2x2.determinant])⟩,
   ⟨by norm_num [Matrix3x3.determinant],
    c4_matrix_inverse_roundtrip.2.1 ⟨1, 2, 3, 4, 5, 6, 7, 8, 9⟩
      (by norm_num [Matrix3x3.determinant])⟩⟩

/-- C5: for every quaternion other than `(0,0,0,0)`, the Hamilton
product `q * q.inverse()` is exactly the identity quaternion
`(0,0,0,1)` over exact arithmetic, and `inverse()` falls back to the
identity quaternion when the squared length is 0. -/
theorem c5_quaternion_inverse_product :
    ∀ q : Quaternion,
      (q ≠ ⟨0, 0, 0, 0⟩ → q.mul q.inverse = Quaternion.identity) ∧
      (q.lengthSquared = 0 → q.inverse = Quaternion.identity) := by
  intro q
  constructor
  · intro hq
    have hn : q.lengthSquared ≠ 0 := by
      intro h
      simp only [Quaternion.lengthSquared] at h
      obtain ⟨hx, hy, hz, hw⟩ := four_squares_eq_zero h
      exact hq (by apply Quaternion.ext <;> assumption)
    rw [Quaternion.inverse, if_neg hn]
    simp only [Quaternion.lengthSquared] at hn
    apply Quaternion.ext <;>
      (simp only [Quaternion.mul, Quaternion.identity, Quaternion.lengthSquared]
       field_simp
       ring)
  · intro h
    rw [Quaternion.inverse, if_pos h]

/-- C5 witness: the theorem applied at `q = (1,2,3,4)` and at the zero
quaternion. -/
theorem c5_quaternion_inverse_product_witness :
    ((Quaternion.mk 1 2 3 4) ≠ ⟨0, 0, 0, 0⟩ ∧
      (Quaternion.mk 1 2 3 4).mul (Quaternion.mk 1 2 3 4).inverse = Quaternion.identity) ∧
    ((Quaternion.mk 0 0 0 0).lengthSquared = 0 ∧
      (Quaternion.mk 0 0 0 0).inverse = Quaternion.identity) :=
  ⟨⟨by simp, (c5_quaternion_inverse_product ⟨1, 2, 3, 4⟩).1 (by simp)⟩,
   ⟨by norm_num [Quaternion.lengthSquared],
    (c5_quaternion_inverse_product ⟨0, 0, 0, 0⟩).2 (by norm_num [Quaternion.lengthSquared])⟩⟩

/-- C2 counterexample: the fixed polynomial that `cos` evaluates at the
reduced angle (here the already-reduced angle 1) has degree 10 but 6
nonzero terms, not 5 as claimed. -/
theorem c2_cos_taylor_term_count_counterexample :
    engineCos 1 = polyEval cosCoeffs 1 ∧
    cosCoeffs.length = 11 ∧
    countNonzero cosCoeffs ≠ 5 ∧ countNonzero cosCoeffs = 6 := by
  refine ⟨?_, by simp [cosCoeffs], ?_, countNonzero_cosCoeffs⟩
  · rw [engineCos_eq, reduceAngle_one]
  · rw [countNonzero_cosCoeffs]
    norm_num

/-- C2 (amended): `cos` first brings the angle into
`[-3.14159265, 3.14159265]` (the source's float approximations of
`[-π, π]`) by repeatedly subtracting or adding `6.28318530`, then
returns the value at the reduced angle of a fixed degree-10 Taylor
polynomial with exactly 6 nonzero terms; nothing else is computed. -/
theorem c2_cos_range_reduction_taylor :
    (∀ radians : ℚ,
      engineCos radians = polyEval cosCoeffs (reduceAngle radians) ∧
      -piLit ≤ reduceAngle radians ∧ reduceAngle radians ≤ piLit) ∧
    cosCoeffs.length = 11 ∧ countNonzero cosCoeffs = 6 := by
  refine ⟨fun radians => ⟨engineCos_eq radians, reduceAngle_bounds radians⟩,
    by simp [cosCoeffs], countNonzero_cosCoeffs⟩

/-- C3 counterexample: at `base = 2`, `exponent = 5/2` the loop runs 3
times (the counter values 0, 1, 2 all compare below 2.5), so `power`
returns `2^3 = 8` and not `2^⌊5/2⌋ = 4` as the claim states. -/
theorem c3_power_floor_counterexample :
    power 2 (5 / 2) = 8 ∧
    (2 : ℚ) ^ (⌊(5 / 2 : ℚ)⌋.toNat) = 4 ∧
    power 2 (5 / 2) ≠ (2 : ℚ) ^ (⌊(5 / 2 : ℚ)⌋.toNat) := by
  have hc : ⌈(5 / 2 : ℚ)⌉ = 3 := by
    rw [Int.ceil_eq_iff]
    norm_num
  have hf : ⌊(5 / 2 : ℚ)⌋ = 2 := by norm_num
  have ht3 : (3 : ℤ).toNat = 3 := rfl
  have ht2 : (2 : ℤ).toNat = 2 := rfl
  have hp : power 2 (5 / 2) = 8 := by
    rw [power_eq_ceil_pow, hc, ht3]
    norm_num
  refine ⟨hp, by rw [hf, ht2]; norm_num, ?_⟩
  rw [hp, hf, ht2]
  norm_num

/-- C3 (amended): for every base and exponent, `power` performs one
multiplication per loop-counter value strictly below the exponent, so
it returns `base` raised to the CEILING of the exponent (clamped at 0
for non-positive exponents), not the floor. -/
theorem c3_power_ceil_multiplications :
    ∀ base exponent : ℚ, power base exponent = base ^ ⌈exponent⌉.toNat :=
  power_eq_ceil_pow

/-- C8: `Matrix3x3 * CVector2` and `Matrix4x4 * CVector3` promote the
vector to homogeneous coordinates with last component 1 (the direct
linear map of the promoted vector), divide each returned component by
the computed `w` when it is nonzero, and return the components
undivided when `w = 0`. -/
theorem c8_homogeneous_transform :
    ∀ (A : Matrix3x3) (v : CVector2) (B : Matrix4x4) (u : CVector3),
      (A.mulVec2 v =
        (let h := A.mulVec3 ⟨v.x, v.y, 1⟩
         if h.z ≠ 0 then ⟨h.x / h.z, h.y / h.z⟩ else ⟨h.x, h.y⟩)) ∧
      (B.mulVec3 u =
        (let h := B.mulVec4 ⟨u.x, u.y, u.z, 1⟩
         if h.w ≠ 0 then ⟨h.x / h.w, h.y / h.w, h.z / h.w⟩
         else ⟨h.x, h.y, h.z⟩)) := by
  intro A v B u
  constructor
  · simp only [Matrix3x3.mulVec2, Matrix3x3.mulVec3]
  · simp only [Matrix4x4.mulVec3, Matrix4x4.mulVec4, mul_one]

end EngineUtilities
